import Mathlib

/-!
Verification of the `requiem` lexer (src/src/lexer.rs).

The Rust source is a logos-generated lexer over four token shapes plus a
skip rule, driven by `tokenize`, which accumulates tokens, counts
parentheses, aborts on the first per-token error, and checks global paren
balance only after a fully successful scan.

The embedding below translates that lexer into Lean:

* `Gate`, `Token`, `LexingError` mirror the Rust enums.
* `isSkipChar`, `isDigitChar`, `isAlphaChar` are the character classes of
  the logos rules `[ \t\n\f]+`, `[0-9]+`, `[a-zA-Z]+`.
* `scanFuel` / `scan` produce the stream of `Result<Token, LexingError>`
  items that the logos iterator yields: maximal-munch runs for digits and
  letters, single-character tokens for parens, skipped whitespace runs,
  and an `Other` error for any unmatched character.  Fuel is the input
  length, which is always sufficient because every step consumes at least
  one character.
* `tokenizeAux` / `tokenize` mirror the `for` loop of `tokenize`.
-/

namespace Requiem

/-- Mirrors the payload of Rust's `std::num::ParseIntError` as far as it is
reachable here: `u16::from_str_radix` on a nonempty all-digit slice can only
fail with positive overflow. -/
inductive IntErrorKind
  | PosOverflow
deriving DecidableEq

/-- Mirrors `LexingError` in src/src/lexer.rs. -/
inductive LexingError
  | ParenCountMismatch
  | NoSuchGate (s : String)
  | ParseIntError (k : IntErrorKind)
  | Other
deriving DecidableEq

/-- Mirrors the `Gate` enum in src/src/lexer.rs. -/
inductive Gate
  | And
  | Or
  | Not
  | Nand
  | Nor
  | Xor
deriving DecidableEq

/-- Mirrors the `Token` enum in src/src/lexer.rs.  `TerminalId` is `u16` in
Rust; it is carried here as a `Nat`, produced only by `parseU16`, which
enforces the 16-bit bound. -/
inductive Token
  | ParenOpen
  | ParenClose
  | TerminalId (n : Nat)
  | Gate (g : Gate)
deriving DecidableEq

/-- Models strum's derived `Display` for `Gate` under
`#[strum(serialize_all = "UPPERCASE")]`: each variant renders as its
uppercased name. -/
def Gate.display : Gate → String
  | .And => "AND"
  | .Or => "OR"
  | .Not => "NOT"
  | .Nand => "NAND"
  | .Nor => "NOR"
  | .Xor => "XOR"

/-- Models strum's derived `Display` for `Token`.  `Token` carries no
`#[strum(...)]` serialization attributes, so each variant renders as the
variant's name as written, and payload fields are ignored. -/
def Token.display : Token → String
  | .ParenOpen => "ParenOpen"
  | .ParenClose => "ParenClose"
  | .TerminalId _ => "TerminalId"
  | .Gate _ => "Gate"

/-- Models strum's derived `FromStr` for `Gate` under
`#[strum(serialize_all = "UPPERCASE")]`: exact match against the six
uppercase names. -/
def gateFromStr (s : String) : Option Gate :=
  if s = "AND" then some .And
  else if s = "OR" then some .Or
  else if s = "NOT" then some .Not
  else if s = "NAND" then some .Nand
  else if s = "NOR" then some .Nor
  else if s = "XOR" then some .Xor
  else none

/-- Character class of the logos skip rule `[ \t\n\f]+`:
space, tab, newline, form feed. -/
def isSkipChar (c : Char) : Bool :=
  c = ' ' || c = '\t' || c = '\n' || c = '\x0c'

/-- Character class of the regex `[0-9]+`: ASCII digits 0x30 to 0x39. -/
def isDigitChar (c : Char) : Bool :=
  48 ≤ c.toNat && c.toNat ≤ 57

/-- Character class of the regex `[a-zA-Z]+`: ASCII letters. -/
def isAlphaChar (c : Char) : Bool :=
  (97 ≤ c.toNat && c.toNat ≤ 122) || (65 ≤ c.toNat && c.toNat ≤ 90)

/-- Models Rust's `str::to_uppercase` on the characters it is applied to
here (the `[a-zA-Z]+` rule): ASCII lowercase maps to uppercase, everything
else is unchanged. -/
def toUpperAscii (c : Char) : Char :=
  if 97 ≤ c.toNat && c.toNat ≤ 122 then Char.ofNat (c.toNat - 32) else c

/-- Decimal accumulation of a digit run, most significant digit first, as
`u16::from_str_radix(_, 10)` performs it. -/
def digitsToNatAux (acc : Nat) : List Char → Nat
  | [] => acc
  | c :: cs => digitsToNatAux (acc * 10 + (c.toNat - 48)) cs

/-- Numeric value of a digit run. -/
def digitsToNat (l : List Char) : Nat := digitsToNatAux 0 l

/-- Models `u16::from_str_radix(slice, 10)` on the slices the lexer feeds
it: a nonempty all-digit run.  On such input the checked arithmetic of
`from_str_radix` succeeds exactly when the value fits in 16 bits and
otherwise reports positive overflow. -/
def parseU16 (l : List Char) : Except IntErrorKind Nat :=
  if digitsToNat l ≤ 65535 then .ok (digitsToNat l) else .error .PosOverflow

/-- The callback of the `[0-9]+` rule: parse the slice as `u16`,
wrapping failure as `LexingError::ParseIntError` (the `#[from]`
conversion). -/
def digitToken (l : List Char) : Except LexingError Token :=
  match parseU16 l with
  | .ok n => .ok (.TerminalId n)
  | .error k => .error (.ParseIntError k)

/-- The callback of the `[a-zA-Z]+` rule: uppercase the slice, resolve it
with `Gate::from_str`, and map failure to `LexingError::NoSuchGate`
carrying the uppercased text. -/
def alphaToken (l : List Char) : Except LexingError Token :=
  match gateFromStr (String.mk (l.map toUpperAscii)) with
  | some g => .ok (.Gate g)
  | none => .error (.NoSuchGate (String.mk (l.map toUpperAscii)))

/-- The character of a single decimal digit value. -/
def digitChar (k : Nat) : Char :=
  if k = 0 then '0' else if k = 1 then '1' else if k = 2 then '2' else if k = 3 then '3'
  else if k = 4 then '4' else if k = 5 then '5' else if k = 6 then '6' else if k = 7 then '7'
  else if k = 8 then '8' else '9'

/-- Digits of `n` in base 10, most significant first, prepended to `acc`;
`f` is fuel, sufficient whenever `n < 10 ^ (f + 1)`. -/
def natDecimalAux (f n : Nat) (acc : List Char) : List Char :=
  if n < 10 then digitChar n :: acc
  else
    match f with
    | 0 => acc
    | g + 1 => natDecimalAux g (n / 10) (digitChar (n % 10) :: acc)

/-- The canonical decimal string representation of a natural number
(no sign, no leading zeros, `0` for zero). -/
def natDecimal (n : Nat) : List Char := natDecimalAux n n []

/-- The stream of items yielded by the logos iterator `Token::lexer(input)`,
with explicit fuel (each step consumes at least one character, so fuel equal
to the input length always suffices; see `scan`).  Branch order follows the
rules; all character classes are pairwise disjoint, so the order carries no
semantic weight, matching logos' priority-based disambiguation. -/
def scanFuel : Nat → List Char → List (Except LexingError Token)
  | _, [] => []
  | 0, _ :: _ => []
  | f + 1, c :: cs =>
    if isSkipChar c then scanFuel f (cs.dropWhile isSkipChar)
    else if c = '(' then .ok .ParenOpen :: scanFuel f cs
    else if c = ')' then .ok .ParenClose :: scanFuel f cs
    else if isDigitChar c then
      digitToken (c :: cs.takeWhile isDigitChar) :: scanFuel f (cs.dropWhile isDigitChar)
    else if isAlphaChar c then
      alphaToken (c :: cs.takeWhile isAlphaChar) :: scanFuel f (cs.dropWhile isAlphaChar)
    else .error .Other :: scanFuel f cs

/-- The item stream of the logos iterator for a given input. -/
def scan (l : List Char) : List (Except LexingError Token) :=
  scanFuel l.length l

/-- Whether a yielded item is an `Ok` token. -/
def resultIsOk : Except LexingError Token → Bool
  | .ok _ => true
  | .error _ => false

/-- The tokens among the yielded items, in order. -/
def okTokens : List (Except LexingError Token) → List Token
  | [] => []
  | .ok t :: rs => t :: okTokens rs
  | .error _ :: rs => okTokens rs

/-- Occurrences of a token in a sequence. -/
def countTok (t : Token) : List Token → Nat
  | [] => 0
  | u :: us => (if u = t then 1 else 0) + countTok t us

/-- The `for` loop of `tokenize`: count parens of each `Ok` item, push it,
and return the first error immediately; after the loop, compare the two
counters. -/
def tokenizeAux : List (Except LexingError Token) → Nat → Nat → List Token →
    Except LexingError (List Token)
  | [], o, c, acc => if o ≠ c then .error .ParenCountMismatch else .ok acc
  | .ok Token.ParenOpen :: rs, o, c, acc =>
    tokenizeAux rs (o + 1) c (acc ++ [Token.ParenOpen])
  | .ok Token.ParenClose :: rs, o, c, acc =>
    tokenizeAux rs o (c + 1) (acc ++ [Token.ParenClose])
  | .ok (Token.TerminalId n) :: rs, o, c, acc =>
    tokenizeAux rs o c (acc ++ [Token.TerminalId n])
  | .ok (Token.Gate g) :: rs, o, c, acc =>
    tokenizeAux rs o c (acc ++ [Token.Gate g])
  | .error e :: _, _, _, _ => .error e

/-- Mirrors `pub fn tokenize(input: &str)` in src/src/lexer.rs. -/
def tokenize (s : String) : Except LexingError (List Token) :=
  tokenizeAux (scan s.data) 0 0 []

theorem dropWhile_length_le (p : Char → Bool) : ∀ l : List Char,
    (l.dropWhile p).length ≤ l.length := by
  intro l
  induction l with
  | nil => exact Nat.le_refl _
  | cons c cs ih =>
    rw [List.dropWhile_cons]
    by_cases h : p c = true
    · rw [if_pos h]
      exact Nat.le_trans ih (Nat.le_succ _)
    · rw [if_neg h]

theorem takeWhile_all (p : Char → Bool) : ∀ l : List Char,
    (∀ c ∈ l, p c = true) → l.takeWhile p = l
  | [], _ => rfl
  | c :: cs, h => by
    rw [List.takeWhile_cons, if_pos (h c (List.mem_cons_self c cs)),
      takeWhile_all p cs (fun x hx => h x (List.mem_cons_of_mem c hx))]

theorem dropWhile_all (p : Char → Bool) : ∀ l : List Char,
    (∀ c ∈ l, p c = true) → l.dropWhile p = []
  | [], _ => rfl
  | c :: cs, h => by
    rw [List.dropWhile_cons, if_pos (h c (List.mem_cons_self c cs)),
      dropWhile_all p cs (fun x hx => h x (List.mem_cons_of_mem c hx))]

theorem takeWhile_append_all (p : Char → Bool) : ∀ a b : List Char,
    (∀ c ∈ a, p c = true) → (a ++ b).takeWhile p = a ++ b.takeWhile p
  | [], _, _ => rfl
  | c :: cs, b, h => by
    rw [List.cons_append, List.takeWhile_cons, if_pos (h c (List.mem_cons_self c cs)),
      takeWhile_append_all p cs b (fun x hx => h x (List.mem_cons_of_mem c hx)),
      List.cons_append]

theorem dropWhile_append_all (p : Char → Bool) : ∀ a b : List Char,
    (∀ c ∈ a, p c = true) → (a ++ b).dropWhile p = b.dropWhile p
  | [], _, _ => rfl
  | c :: cs, b, h => by
    rw [List.cons_append, List.dropWhile_cons, if_pos (h c (List.mem_cons_self c cs)),
      dropWhile_append_all p cs b (fun x hx => h x (List.mem_cons_of_mem c hx))]

theorem takeWhile_head_false (p : Char → Bool) (b : List Char)
    (h : ∀ x, b.head? = some x → p x = false) : b.takeWhile p = [] := by
  cases b with
  | nil => rfl
  | cons x xs => rw [List.takeWhile_cons, if_neg (by simp [h x rfl])]

theorem dropWhile_head_false (p : Char → Bool) (b : List Char)
    (h : ∀ x, b.head? = some x → p x = false) : b.dropWhile p = b := by
  cases b with
  | nil => rfl
  | cons x xs => rw [List.dropWhile_cons, if_neg (by simp [h x rfl])]

theorem skip_char_cases (c : Char) (h : isSkipChar c = true) :
    c = ' ' ∨ c = '\t' ∨ c = '\n' ∨ c = '\x0c' := by
  simpa [isSkipChar, or_assoc] using h

theorem digit_no_other_class (c : Char) (h : isDigitChar c = true) :
    isSkipChar c = false ∧ c ≠ '(' ∧ c ≠ ')' ∧ isAlphaChar c = false := by
  refine ⟨?_, ?_, ?_, ?_⟩
  · cases hs : isSkipChar c
    · rfl
    · rcases skip_char_cases c hs with rfl | rfl | rfl | rfl <;> exact absurd h (by decide)
  · rintro rfl; exact absurd h (by decide)
  · rintro rfl; exact absurd h (by decide)
  · cases ha : isAlphaChar c
    · rfl
    · exfalso
      simp only [isAlphaChar, Bool.or_eq_true, Bool.and_eq_true, decide_eq_true_eq] at ha
      simp only [isDigitChar, Bool.and_eq_true, decide_eq_true_eq] at h
      omega

theorem alpha_no_other_class (c : Char) (h : isAlphaChar c = true) :
    isSkipChar c = false ∧ c ≠ '(' ∧ c ≠ ')' ∧ isDigitChar c = false := by
  refine ⟨?_, ?_, ?_, ?_⟩
  · cases hs : isSkipChar c
    · rfl
    · rcases skip_char_cases c hs with rfl | rfl | rfl | rfl <;> exact absurd h (by decide)
  · rintro rfl; exact absurd h (by decide)
  · rintro rfl; exact absurd h (by decide)
  · cases hd : isDigitChar c
    · rfl
    · exfalso
      simp only [isDigitChar, Bool.and_eq_true, decide_eq_true_eq] at hd
      simp only [isAlphaChar, Bool.or_eq_true, Bool.and_eq_true, decide_eq_true_eq] at h
      omega

theorem scanFuel_nil (f : Nat) : scanFuel f [] = [] := by cases f <;> rfl

theorem scanFuel_congr : ∀ f g : Nat, ∀ l : List Char, l.length ≤ f → l.length ≤ g →
    scanFuel f l = scanFuel g l := by
  intro f
  induction f with
  | zero =>
    intro g l hf _
    have hl : l = [] := List.eq_nil_of_length_eq_zero (Nat.le_zero.mp hf)
    subst hl
    rw [scanFuel_nil, scanFuel_nil]
  | succ f ih =>
    intro g l hf hg
    cases l with
    | nil => rw [scanFuel_nil, scanFuel_nil]
    | cons c cs =>
      cases g with
      | zero => simp at hg
      | succ g =>
        have hf' : cs.length ≤ f := by simp only [List.length_cons] at hf; omega
        have hg' : cs.length ≤ g := by simp only [List.length_cons] at hg; omega
        simp only [scanFuel]
        by_cases h1 : isSkipChar c = true
        · rw [if_pos h1, if_pos h1]
          exact ih _ _ (Nat.le_trans (dropWhile_length_le _ _) hf')
            (Nat.le_trans (dropWhile_length_le _ _) hg')
        · rw [if_neg h1, if_neg h1]
          by_cases h2 : c = '('
          · rw [if_pos h2, if_pos h2, ih _ cs hf' hg']
          · rw [if_neg h2, if_neg h2]
            by_cases h3 : c = ')'
            · rw [if_pos h3, if_pos h3, ih _ cs hf' hg']
            · rw [if_neg h3, if_neg h3]
              by_cases h4 : isDigitChar c = true
              · rw [if_pos h4, if_pos h4,
                  ih _ _ (Nat.le_trans (dropWhile_length_le _ _) hf')
                    (Nat.le_trans (dropWhile_length_le _ _) hg')]
              · rw [if_neg h4, if_neg h4]
                by_cases h5 : isAlphaChar c = true
                · rw [if_pos h5, if_pos h5,
                    ih _ _ (Nat.le_trans (dropWhile_length_le _ _) hf')
                      (Nat.le_trans (dropWhile_length_le _ _) hg')]
                · rw [if_neg h5, if_neg h5, ih _ cs hf' hg']

theorem scan_nil : scan [] = [] := rfl

theorem scan_skip_cons (c : Char) (cs : List Char) (h : isSkipChar c = true) :
    scan (c :: cs) = scan (cs.dropWhile isSkipChar) := by
  show scanFuel (cs.length + 1) (c :: cs) = _
  simp only [scanFuel]
  rw [if_pos h]
  exact scanFuel_congr _ _ _ (dropWhile_length_le _ _) (Nat.le_refl _)

theorem scan_open_cons (cs : List Char) :
    scan ('(' :: cs) = .ok Token.ParenOpen :: scan cs := by
  show scanFuel (cs.length + 1) ('(' :: cs) = _
  simp only [scanFuel]
  rw [if_neg (by decide), if_pos trivial]
  rfl

theorem scan_close_cons (cs : List Char) :
    scan (')' :: cs) = .ok Token.ParenClose :: scan cs := by
  show scanFuel (cs.length + 1) (')' :: cs) = _
  simp only [scanFuel]
  rw [if_neg (by decide), if_neg (by decide), if_pos trivial]
  rfl

theorem scan_digit_cons (c : Char) (cs : List Char) (h : isDigitChar c = true) :
    scan (c :: cs) =
      digitToken (c :: cs.takeWhile isDigitChar) :: scan (cs.dropWhile isDigitChar) := by
  obtain ⟨hs, hop, hcl, _⟩ := digit_no_other_class c h
  show scanFuel (cs.length + 1) (c :: cs) = _
  simp only [scanFuel]
  rw [if_neg (by simp [hs]), if_neg hop, if_neg hcl, if_pos h,
    scanFuel_congr cs.length (cs.dropWhile isDigitChar).length (cs.dropWhile isDigitChar)
      (dropWhile_length_le _ _) (Nat.le_refl _)]
  rfl

theorem scan_alpha_cons (c : Char) (cs : List Char) (h : isAlphaChar c = true) :
    scan (c :: cs) =
      alphaToken (c :: cs.takeWhile isAlphaChar) :: scan (cs.dropWhile isAlphaChar) := by
  obtain ⟨hs, hop, hcl, hd⟩ := alpha_no_other_class c h
  show scanFuel (cs.length + 1) (c :: cs) = _
  simp only [scanFuel]
  rw [if_neg (by simp [hs]), if_neg hop, if_neg hcl, if_neg (by simp [hd]), if_pos h,
    scanFuel_congr cs.length (cs.dropWhile isAlphaChar).length (cs.dropWhile isAlphaChar)
      (dropWhile_length_le _ _) (Nat.le_refl _)]
  rfl

theorem scan_other_cons (c : Char) (cs : List Char) (hs : isSkipChar c = false)
    (hop : c ≠ '(') (hcl : c ≠ ')') (hd : isDigitChar c = false)
    (ha : isAlphaChar c = false) :
    scan (c :: cs) = .error LexingError.Other :: scan cs := by
  show scanFuel (cs.length + 1) (c :: cs) = _
  simp only [scanFuel]
  rw [if_neg (by simp [hs]), if_neg hop, if_neg hcl, if_neg (by simp [hd]),
    if_neg (by simp [ha])]
  rfl

theorem countTok_nil (t : Token) : countTok t [] = 0 := rfl

theorem countTok_cons_self (t : Token) (ts : List Token) :
    countTok t (t :: ts) = countTok t ts + 1 := by
  simp [countTok, Nat.add_comm]

theorem countTok_cons_ne (u t : Token) (ts : List Token) (h : u ≠ t) :
    countTok t (u :: ts) = countTok t ts := by
  simp [countTok, h]

theorem digitToken_ne_mismatch (l : List Char) :
    digitToken l ≠ Except.error LexingError.ParenCountMismatch := by
  cases hp : parseU16 l with
  | ok n => simp [digitToken, hp]
  | error k => simp [digitToken, hp]

theorem alphaToken_ne_mismatch (l : List Char) :
    alphaToken l ≠ Except.error LexingError.ParenCountMismatch := by
  cases hp : gateFromStr (String.mk (l.map toUpperAscii)) with
  | some g => simp [alphaToken, hp]
  | none => simp [alphaToken, hp]

theorem scanFuel_error_ne_mismatch : ∀ (f : Nat) (l : List Char) (e : LexingError),
    Except.error e ∈ scanFuel f l → e ≠ LexingError.ParenCountMismatch := by
  intro f
  induction f with
  | zero =>
    intro l e hmem
    cases l with
    | nil => simp [scanFuel_nil] at hmem
    | cons c cs => simp [scanFuel] at hmem
  | succ f ih =>
    intro l e hmem
    cases l with
    | nil => simp [scanFuel_nil] at hmem
    | cons c cs =>
      simp only [scanFuel] at hmem
      by_cases h1 : isSkipChar c = true
      · rw [if_pos h1] at hmem
        exact ih _ _ hmem
      · rw [if_neg h1] at hmem
        by_cases h2 : c = '('
        · rw [if_pos h2] at hmem
          rcases List.mem_cons.mp hmem with heq | hmem'
          · exact absurd heq (by simp)
          · exact ih _ _ hmem'
        · rw [if_neg h2] at hmem
          by_cases h3 : c = ')'
          · rw [if_pos h3] at hmem
            rcases List.mem_cons.mp hmem with heq | hmem'
            · exact absurd heq (by simp)
            · exact ih _ _ hmem'
          · rw [if_neg h3] at hmem
            by_cases h4 : isDigitChar c = true
            · rw [if_pos h4] at hmem
              rcases List.mem_cons.mp hmem with heq | hmem'
              · intro hpc
                subst hpc
                exact digitToken_ne_mismatch _ heq.symm
              · exact ih _ _ hmem'
            · rw [if_neg h4] at hmem
              by_cases h5 : isAlphaChar c = true
              · rw [if_pos h5] at hmem
                rcases List.mem_cons.mp hmem with heq | hmem'
                · intro hpc
                  subst hpc
                  exact alphaToken_ne_mismatch _ heq.symm
                · exact ih _ _ hmem'
              · rw [if_neg h5] at hmem
                rcases List.mem_cons.mp hmem with heq | hmem'
                · intro hpc
                  subst hpc
                  simp at heq
                · exact ih _ _ hmem'

theorem scan_error_ne_mismatch (l : List Char) (e : LexingError)
    (h : Except.error e ∈ scan l) : e ≠ LexingError.ParenCountMismatch :=
  scanFuel_error_ne_mismatch _ _ _ h

theorem tokenizeAux_append_error : ∀ (pre : List (Except LexingError Token))
    (e : LexingError) (post : List (Except LexingError Token)) (o c : Nat)
    (acc : List Token), (∀ r ∈ pre, resultIsOk r = true) →
    tokenizeAux (pre ++ Except.error e :: post) o c acc = .error e
  | [], _, _, _, _, _, _ => rfl
  | r :: pre, e, post, o, c, acc, h => by
    have hr : resultIsOk r = true := h r (List.mem_cons_self r pre)
    have h' : ∀ x ∈ pre, resultIsOk x = true :=
      fun x hx => h x (List.mem_cons_of_mem r hx)
    cases r with
    | error e' => simp [resultIsOk] at hr
    | ok t =>
      cases t <;> simp only [List.cons_append, tokenizeAux] <;>
        exact tokenizeAux_append_error pre e post _ _ _ h'

theorem tokenizeAux_all_ok : ∀ (rs : List (Except LexingError Token)) (o c : Nat)
    (acc : List Token), (∀ r ∈ rs, resultIsOk r = true) →
    (o + countTok Token.ParenOpen (okTokens rs) ≠
        c + countTok Token.ParenClose (okTokens rs) →
      tokenizeAux rs o c acc = .error LexingError.ParenCountMismatch) ∧
    (o + countTok Token.ParenOpen (okTokens rs) =
        c + countTok Token.ParenClose (okTokens rs) →
      tokenizeAux rs o c acc = .ok (acc ++ okTokens rs))
  | [], o, c, acc, _ => by
    constructor
    · intro hne
      simp only [okTokens, countTok_nil, Nat.add_zero] at hne
      simp only [tokenizeAux, if_pos hne]
    · intro heq
      simp only [okTokens, countTok_nil, Nat.add_zero] at heq
      simp only [tokenizeAux, if_neg (by omega : ¬o ≠ c), okTokens, List.append_nil]
  | .ok Token.ParenOpen :: rs, o, c, acc, h => by
    have h' : ∀ x ∈ rs, resultIsOk x = true :=
      fun x hx => h x (List.mem_cons_of_mem _ hx)
    have ih := tokenizeAux_all_ok rs (o + 1) c (acc ++ [Token.ParenOpen]) h'
    constructor
    · intro hne
      simp only [okTokens, countTok_cons_self,
        countTok_cons_ne Token.ParenOpen Token.ParenClose _ (by simp)] at hne
      simp only [tokenizeAux]
      exact ih.1 (by omega)
    · intro heq
      simp only [okTokens, countTok_cons_self,
        countTok_cons_ne Token.ParenOpen Token.ParenClose _ (by simp)] at heq
      simp only [tokenizeAux]
      rw [ih.2 (by omega)]
      simp [okTokens]
  | .ok Token.ParenClose :: rs, o, c, acc, h => by
    have h' : ∀ x ∈ rs, resultIsOk x = true :=
      fun x hx => h x (List.mem_cons_of_mem _ hx)
    have ih := tokenizeAux_all_ok rs o (c + 1) (acc ++ [Token.ParenClose]) h'
    constructor
    · intro hne
      simp only [okTokens, countTok_cons_self,
        countTok_cons_ne Token.ParenClose Token.ParenOpen _ (by simp)] at hne
      simp only [tokenizeAux]
      exact ih.1 (by omega)
    · intro heq
      simp only [okTokens, countTok_cons_self,
        countTok_cons_ne Token.ParenClose Token.ParenOpen _ (by simp)] at heq
      simp only [tokenizeAux]
      rw [ih.2 (by omega)]
      simp [okTokens]
  | .ok (Token.TerminalId n) :: rs, o, c, acc, h => by
    have h' : ∀ x ∈ rs, resultIsOk x = true :=
      fun x hx => h x (List.mem_cons_of_mem _ hx)
    have ih := tokenizeAux_all_ok rs o c (acc ++ [Token.TerminalId n]) h'
    constructor
    · intro hne
      simp only [okTokens,
        countTok_cons_ne (Token.TerminalId n) Token.ParenOpen _ (by simp),
        countTok_cons_ne (Token.TerminalId n) Token.ParenClose _ (by simp)] at hne
      simp only [tokenizeAux]
      exact ih.1 (by omega)
    · intro heq
      simp only [okTokens,
        countTok_cons_ne (Token.TerminalId n) Token.ParenOpen _ (by simp),
        countTok_cons_ne (Token.TerminalId n) Token.ParenClose _ (by simp)] at heq
      simp only [tokenizeAux]
      rw [ih.2 (by omega)]
      simp [okTokens]
  | .ok (Token.Gate g) :: rs, o, c, acc, h => by
    have h' : ∀ x ∈ rs, resultIsOk x = true :=
      fun x hx => h x (List.mem_cons_of_mem _ hx)
    have ih := tokenizeAux_all_ok rs o c (acc ++ [Token.Gate g]) h'
    constructor
    · intro hne
      simp only [okTokens,
        countTok_cons_ne (Token.Gate g) Token.ParenOpen _ (by simp),
        countTok_cons_ne (Token.Gate g) Token.ParenClose _ (by simp)] at hne
      simp only [tokenizeAux]
      exact ih.1 (by omega)
    · intro heq
      simp only [okTokens,
        countTok_cons_ne (Token.Gate g) Token.ParenOpen _ (by simp),
        countTok_cons_ne (Token.Gate g) Token.ParenClose _ (by simp)] at heq
      simp only [tokenizeAux]
      rw [ih.2 (by omega)]
      simp [okTokens]
  | .error e :: rs, o, c, acc, h => by
    have hr : resultIsOk (Except.error e) = true :=
      h _ (List.mem_cons_self _ rs)
    simp [resultIsOk] at hr

theorem tokenizeAux_ok_counts : ∀ (rs : List (Except LexingError Token)) (o c : Nat)
    (acc seq : List Token), tokenizeAux rs o c acc = .ok seq →
    ∃ ts, seq = acc ++ ts ∧
      o + countTok Token.ParenOpen ts = c + countTok Token.ParenClose ts
  | [], o, c, acc, seq, h => by
    by_cases hoc : o ≠ c
    · simp only [tokenizeAux, if_pos hoc] at h
      exact absurd h (by simp)
    · simp only [tokenizeAux, if_neg hoc] at h
      injection h with h
      exact ⟨[], by simp [h], by simp only [countTok_nil, Nat.add_zero]; omega⟩
  | .ok Token.ParenOpen :: rs, o, c, acc, seq, h => by
    simp only [tokenizeAux] at h
    obtain ⟨ts, hseq, hcnt⟩ := tokenizeAux_ok_counts rs (o + 1) c _ seq h
    refine ⟨Token.ParenOpen :: ts, by simp [hseq], ?_⟩
    rw [countTok_cons_self,
      countTok_cons_ne Token.ParenOpen Token.ParenClose _ (by simp)]
    omega
  | .ok Token.ParenClose :: rs, o, c, acc, seq, h => by
    simp only [tokenizeAux] at h
    obtain ⟨ts, hseq, hcnt⟩ := tokenizeAux_ok_counts rs o (c + 1) _ seq h
    refine ⟨Token.ParenClose :: ts, by simp [hseq], ?_⟩
    rw [countTok_cons_self,
      countTok_cons_ne Token.ParenClose Token.ParenOpen _ (by simp)]
    omega
  | .ok (Token.TerminalId n) :: rs, o, c, acc, seq, h => by
    simp only [tokenizeAux] at h
    obtain ⟨ts, hseq, hcnt⟩ := tokenizeAux_ok_counts rs o c _ seq h
    refine ⟨Token.TerminalId n :: ts, by simp [hseq], ?_⟩
    rw [countTok_cons_ne (Token.TerminalId n) Token.ParenOpen _ (by simp),
      countTok_cons_ne (Token.TerminalId n) Token.ParenClose _ (by simp)]
    omega
  | .ok (Token.Gate g) :: rs, o, c, acc, seq, h => by
    simp only [tokenizeAux] at h
    obtain ⟨ts, hseq, hcnt⟩ := tokenizeAux_ok_counts rs o c _ seq h
    refine ⟨Token.Gate g :: ts, by simp [hseq], ?_⟩
    rw [countTok_cons_ne (Token.Gate g) Token.ParenOpen _ (by simp),
      countTok_cons_ne (Token.Gate g) Token.ParenClose _ (by simp)]
    omega
  | .error e :: rs, o, c, acc, seq, h => by
    simp [tokenizeAux] at h

theorem scan_dropWhile_skip (l : List Char) :
    scan (l.dropWhile isSkipChar) = scan l := by
  cases l with
  | nil => rfl
  | cons c cs =>
    rw [List.dropWhile_cons]
    by_cases h : isSkipChar c = true
    · rw [if_pos h, scan_skip_cons c cs h]
    · rw [if_neg h]

theorem scan_ws_collapse (ws l : List Char) (h : ∀ c ∈ ws, isSkipChar c = true) :
    scan (ws ++ l) = scan l := by
  cases ws with
  | nil => rfl
  | cons c cs =>
    rw [List.cons_append, scan_skip_cons c _ (h c (List.mem_cons_self c cs)),
      dropWhile_append_all _ cs l (fun x hx => h x (List.mem_cons_of_mem c hx)),
      scan_dropWhile_skip]

theorem scan_digit_run (c : Char) (ds rest : List Char) (hc : isDigitChar c = true)
    (hds : ∀ x ∈ ds, isDigitChar x = true)
    (hrest : ∀ x, rest.head? = some x → isDigitChar x = false) :
    scan (c :: (ds ++ rest)) = digitToken (c :: ds) :: scan rest := by
  rw [scan_digit_cons c (ds ++ rest) hc,
    takeWhile_append_all _ ds rest hds, takeWhile_head_false _ rest hrest,
    dropWhile_append_all _ ds rest hds, dropWhile_head_false _ rest hrest,
    List.append_nil]

theorem scan_alpha_run (c : Char) (as rest : List Char) (hc : isAlphaChar c = true)
    (has : ∀ x ∈ as, isAlphaChar x = true)
    (hrest : ∀ x, rest.head? = some x → isAlphaChar x = false) :
    scan (c :: (as ++ rest)) = alphaToken (c :: as) :: scan rest := by
  rw [scan_alpha_cons c (as ++ rest) hc,
    takeWhile_append_all _ as rest has, takeWhile_head_false _ rest hrest,
    dropWhile_append_all _ as rest has, dropWhile_head_false _ rest hrest,
    List.append_nil]

theorem scan_digit_single (c : Char) (ds : List Char) (hc : isDigitChar c = true)
    (hds : ∀ x ∈ ds, isDigitChar x = true) :
    scan (c :: ds) = [digitToken (c :: ds)] := by
  have h := scan_digit_run c ds [] hc hds (fun x hx => by simp at hx)
  rw [List.append_nil] at h
  rw [h, scan_nil]

theorem scan_alpha_single (c : Char) (as : List Char) (hc : isAlphaChar c = true)
    (has : ∀ x ∈ as, isAlphaChar x = true) :
    scan (c :: as) = [alphaToken (c :: as)] := by
  have h := scan_alpha_run c as [] hc has (fun x hx => by simp at hx)
  rw [List.append_nil] at h
  rw [h, scan_nil]

theorem digitChar_toNat (k : Nat) (h : k < 10) : (digitChar k).toNat = 48 + k := by
  interval_cases k <;> rfl

theorem digitChar_digit (k : Nat) (h : k < 10) : isDigitChar (digitChar k) = true := by
  interval_cases k <;> rfl

theorem digitsToNatAux_nil (a : Nat) : digitsToNatAux a [] = a := rfl

theorem digitsToNatAux_cons (a : Nat) (c : Char) (cs : List Char) :
    digitsToNatAux a (c :: cs) = digitsToNatAux (a * 10 + (c.toNat - 48)) cs := rfl

theorem digitsToNatAux_append : ∀ (l1 : List Char) (a : Nat) (l2 : List Char),
    digitsToNatAux a (l1 ++ l2) = digitsToNatAux (digitsToNatAux a l1) l2
  | [], _, _ => rfl
  | c :: cs, a, l2 => digitsToNatAux_append cs (a * 10 + (c.toNat - 48)) l2

theorem natDecimalAux_acc : ∀ (f n : Nat) (acc : List Char),
    natDecimalAux f n acc = natDecimalAux f n [] ++ acc := by
  intro f
  induction f with
  | zero =>
    intro n acc
    simp only [natDecimalAux]
    by_cases h : n < 10
    · rw [if_pos h, if_pos h]
      rfl
    · rw [if_neg h, if_neg h]
      rfl
  | succ f ih =>
    intro n acc
    simp only [natDecimalAux]
    by_cases h : n < 10
    · rw [if_pos h, if_pos h]
      rfl
    · rw [if_neg h, if_neg h,
        ih (n / 10) (digitChar (n % 10) :: acc), ih (n / 10) [digitChar (n % 10)]]
      simp

theorem pow_ten_succ (f : Nat) : (10:Nat) ^ (f + 1 + 1) = 10 * 10 ^ (f + 1) := by
  ring

theorem natDecimalAux_lt_ten (f n : Nat) (acc : List Char) (h : n < 10) :
    natDecimalAux f n acc = digitChar n :: acc := by
  cases f <;> simp only [natDecimalAux, if_pos h]

theorem natDecimalAux_value : ∀ (f n : Nat), n < 10 ^ (f + 1) → ∀ a : Nat,
    digitsToNatAux a (natDecimalAux f n []) =
      a * 10 ^ (natDecimalAux f n []).length + n := by
  intro f
  induction f with
  | zero =>
    intro n hn a
    have h10 : n < 10 := by simpa using hn
    simp only [natDecimalAux, if_pos h10]
    rw [digitsToNatAux_cons, digitsToNatAux_nil, digitChar_toNat n h10]
    simp only [List.length_cons, List.length_nil, pow_one]
    omega
  | succ f ih =>
    intro n hn a
    by_cases h10 : n < 10
    · rw [natDecimalAux_lt_ten _ n [] h10, digitsToNatAux_cons, digitsToNatAux_nil,
        digitChar_toNat n h10]
      simp only [List.length_cons, List.length_nil, pow_one]
      omega
    · simp only [natDecimalAux, if_neg h10]
      have hdiv : n / 10 < 10 ^ (f + 1) := by
        have hp := pow_ten_succ f
        exact Nat.div_lt_of_lt_mul (by omega)
      rw [natDecimalAux_acc f (n / 10) [digitChar (n % 10)],
        digitsToNatAux_append, ih (n / 10) hdiv a]
      rw [digitsToNatAux_cons, digitsToNatAux_nil,
        digitChar_toNat (n % 10) (Nat.mod_lt n (by norm_num)),
        List.length_append, List.length_cons, List.length_nil, pow_succ,
        ← Nat.mul_assoc]
      generalize a * 10 ^ (natDecimalAux f (n / 10) []).length = X
      omega

theorem natDecimalAux_all_digits : ∀ (f n : Nat) (acc : List Char),
    (∀ x ∈ acc, isDigitChar x = true) → n < 10 ^ (f + 1) →
    ∀ x ∈ natDecimalAux f n acc, isDigitChar x = true := by
  intro f
  induction f with
  | zero =>
    intro n acc hacc hn x hx
    have h10 : n < 10 := by simpa using hn
    simp only [natDecimalAux, if_pos h10] at hx
    rcases List.mem_cons.mp hx with rfl | hx'
    · exact digitChar_digit n h10
    · exact hacc x hx'
  | succ f ih =>
    intro n acc hacc hn x hx
    by_cases h10 : n < 10
    · simp only [natDecimalAux, if_pos h10] at hx
      rcases List.mem_cons.mp hx with rfl | hx'
      · exact digitChar_digit n h10
      · exact hacc x hx'
    · simp only [natDecimalAux, if_neg h10] at hx
      have hdiv : n / 10 < 10 ^ (f + 1) := by
        have hp := pow_ten_succ f
        exact Nat.div_lt_of_lt_mul (by omega)
      refine ih (n / 10) _ ?_ hdiv x hx
      intro y hy
      rcases List.mem_cons.mp hy with rfl | hy'
      · exact digitChar_digit (n % 10) (Nat.mod_lt n (by norm_num))
      · exact hacc y hy'

theorem natDecimalAux_ne_nil : ∀ (f n : Nat) (acc : List Char), acc ≠ [] →
    natDecimalAux f n acc ≠ [] := by
  intro f
  induction f with
  | zero =>
    intro n acc hacc
    simp only [natDecimalAux]
    by_cases h : n < 10
    · rw [if_pos h]
      simp
    · rw [if_neg h]
      exact hacc
  | succ f ih =>
    intro n acc hacc
    simp only [natDecimalAux]
    by_cases h : n < 10
    · rw [if_pos h]
      simp
    · rw [if_neg h]
      exact ih (n / 10) _ (by simp)

theorem natDecimal_bound (n : Nat) : n < 10 ^ (n + 1) :=
  Nat.lt_of_lt_of_le (Nat.lt_pow_self (by norm_num) n)
    (Nat.pow_le_pow_right (by norm_num) (Nat.le_succ n))

theorem natDecimal_all_digits (n : Nat) : ∀ x ∈ natDecimal n, isDigitChar x = true :=
  natDecimalAux_all_digits n n [] (by simp) (natDecimal_bound n)

theorem natDecimal_value (n : Nat) : digitsToNat (natDecimal n) = n := by
  unfold digitsToNat natDecimal
  rw [natDecimalAux_value n n (natDecimal_bound n) 0]
  simp

theorem natDecimal_ne_nil (n : Nat) : natDecimal n ≠ [] := by
  unfold natDecimal
  by_cases h : n < 10
  · rw [natDecimalAux_lt_ten n n [] h]
    simp
  · cases n with
    | zero => omega
    | succ m =>
      simp only [natDecimalAux, if_neg h]
      exact natDecimalAux_ne_nil m _ _ (by simp)

/-- Claim C1: if the lexical rule set reports a per-token error at some
position (every earlier item being an `Ok` token), `tokenize` aborts and
returns exactly that error, and the returned error is never
`ParenCountMismatch` — a lexical defect wins regardless of the parenthesis
balance of the input. -/
theorem tokenize_aborts_on_rule_error (s : String)
    (pre post : List (Except LexingError Token)) (e : LexingError)
    (hscan : scan s.data = pre ++ Except.error e :: post)
    (hpre : ∀ r ∈ pre, resultIsOk r = true) :
    tokenize s = .error e ∧ e ≠ LexingError.ParenCountMismatch := by
  constructor
  · unfold tokenize
    rw [hscan]
    exact tokenizeAux_append_error pre e post 0 0 [] hpre
  · have hmem : Except.error e ∈ scan s.data := by
      rw [hscan]
      exact List.mem_append.mpr (Or.inr (List.mem_cons_self _ _))
    exact scan_error_ne_mismatch s.data e hmem

/-- Witness for C1: an unknown keyword inside an unbalanced paren yields the
keyword error, never `ParenCountMismatch`. -/
theorem tokenize_aborts_on_rule_error_witness :
    tokenize "(xyz" = .error (LexingError.NoSuchGate "XYZ") :=
  (tokenize_aborts_on_rule_error "(xyz" [.ok Token.ParenOpen] []
    (LexingError.NoSuchGate "XYZ") (by rfl) (by decide)).1

/-- Claim C2: on an input whose every item lexes successfully, `tokenize`
compares the total `ParenOpen` and `ParenClose` counts after the whole scan:
unequal counts fail with `ParenCountMismatch`, equal counts return the token
sequence; in particular `"("`, `")"` and `"(0 and 1))"` all fail with
`ParenCountMismatch`. -/
theorem tokenize_global_balance :
    (∀ s : String, (∀ r ∈ scan s.data, resultIsOk r = true) →
      (countTok Token.ParenOpen (okTokens (scan s.data)) ≠
          countTok Token.ParenClose (okTokens (scan s.data)) →
        tokenize s = .error LexingError.ParenCountMismatch) ∧
      (countTok Token.ParenOpen (okTokens (scan s.data)) =
          countTok Token.ParenClose (okTokens (scan s.data)) →
        tokenize s = .ok (okTokens (scan s.data)))) ∧
    tokenize "(" = .error LexingError.ParenCountMismatch ∧
    tokenize ")" = .error LexingError.ParenCountMismatch ∧
    tokenize "(0 and 1))" = .error LexingError.ParenCountMismatch := by
  refine ⟨?_, rfl, rfl, rfl⟩
  intro s hall
  have h := tokenizeAux_all_ok (scan s.data) 0 0 [] hall
  constructor
  · intro hne
    exact h.1 (by omega)
  · intro heq
    show tokenizeAux (scan s.data) 0 0 [] = Except.ok (okTokens (scan s.data))
    rw [h.2 (by omega)]
    simp

/-- Witness for C2 on a balanced input. -/
theorem tokenize_global_balance_witness :
    tokenize "(0)" = .ok [Token.ParenOpen, Token.TerminalId 0, Token.ParenClose] :=
  ((tokenize_global_balance.1 "(0)" (by decide)).2 (by rfl)).trans (by rfl)

/-- Claim C3 counterexample: `Token.display Token.ParenOpen` is the variant
name `"ParenOpen"`, not the literal character `"("`. -/
theorem token_display_counterexample :
    Token.display Token.ParenOpen = "ParenOpen" ∧
      Token.display Token.ParenOpen ≠ "(" := by
  constructor
  · rfl
  · decide

/-- Claim C3 amended: tokens render as their bare variant names (payload
fields ignored): a gate token renders as `"Gate"`, a terminal token as
`"TerminalId"`, parens as `"ParenOpen"`/`"ParenClose"`; a `Gate` value by
itself renders as its uppercase canonical name. -/
theorem token_display_amended :
    (∀ g : Gate, Token.display (Token.Gate g) = "Gate") ∧
    (∀ n : Nat, Token.display (Token.TerminalId n) = "TerminalId") ∧
    Token.display Token.ParenOpen = "ParenOpen" ∧
    Token.display Token.ParenClose = "ParenClose" ∧
    Gate.display Gate.And = "AND" ∧ Gate.display Gate.Or = "OR" ∧
    Gate.display Gate.Not = "NOT" ∧ Gate.display Gate.Nand = "NAND" ∧
    Gate.display Gate.Nor = "NOR" ∧ Gate.display Gate.Xor = "XOR" :=
  ⟨fun _ => rfl, fun _ => rfl, rfl, rfl, rfl, rfl, rfl, rfl, rfl, rfl⟩

/-- Claim C4: a purely alphabetic word tokenizes to the single gate token
named by its uppercasing when that matches one of the six gate names, and
otherwise fails with `NoSuchGate` carrying the uppercased text; matching is
case-insensitive because the word is uppercased before the membership test;
`tokenize "xyz"` fails with `NoSuchGate "XYZ"`. -/
theorem tokenize_alpha_word :
    (∀ l : List Char, l ≠ [] → (∀ c ∈ l, isAlphaChar c = true) →
      tokenize (String.mk l) =
        match gateFromStr (String.mk (l.map toUpperAscii)) with
        | some g => .ok [Token.Gate g]
        | none => .error (LexingError.NoSuchGate (String.mk (l.map toUpperAscii)))) ∧
    (∀ g : Gate, gateFromStr (Gate.display g) = some g) ∧
    (∀ (g : Gate) (l : List Char), l ≠ [] → (∀ c ∈ l, isAlphaChar c = true) →
      l.map toUpperAscii = (Gate.display g).data →
      tokenize (String.mk l) = .ok [Token.Gate g]) ∧
    tokenize "xyz" = .error (LexingError.NoSuchGate "XYZ") := by
  have main : ∀ l : List Char, l ≠ [] → (∀ c ∈ l, isAlphaChar c = true) →
      tokenize (String.mk l) =
        match gateFromStr (String.mk (l.map toUpperAscii)) with
        | some g => .ok [Token.Gate g]
        | none => .error (LexingError.NoSuchGate (String.mk (l.map toUpperAscii))) := by
    intro l hne halpha
    obtain ⟨c, cs, rfl⟩ := List.exists_cons_of_ne_nil hne
    have hc := halpha c (List.mem_cons_self c cs)
    have hcs : ∀ x ∈ cs, isAlphaChar x = true :=
      fun x hx => halpha x (List.mem_cons_of_mem c hx)
    show tokenizeAux (scan (c :: cs)) 0 0 [] = _
    rw [scan_alpha_single c cs hc hcs]
    simp only [alphaToken, List.map_cons]
    cases hgf : gateFromStr (String.mk (toUpperAscii c :: List.map toUpperAscii cs)) with
    | some g => simp [tokenizeAux]
    | none => simp [tokenizeAux]
  refine ⟨main, ?_, ?_, rfl⟩
  · intro g
    cases g <;> rfl
  · intro g l hne halpha hup
    rw [main l hne halpha, hup]
    cases g <;> rfl

/-- Witness for C4 at a mixed-case gate word. -/
theorem tokenize_alpha_word_witness :
    tokenize (String.mk ['n', 'O', 'r']) = .ok [Token.Gate Gate.Nor] :=
  (tokenize_alpha_word.1 ['n', 'O', 'r'] (by decide) (by decide)).trans (by rfl)

/-- Claim C5: for every `n ≤ 65535`, tokenizing the decimal representation
of `n` yields exactly `[TerminalId n]`. -/
theorem tokenize_decimal_repr (n : Nat) (h : n ≤ 65535) :
    tokenize (String.mk (natDecimal n)) = .ok [Token.TerminalId n] := by
  obtain ⟨c, cs, hcc⟩ := List.exists_cons_of_ne_nil (natDecimal_ne_nil n)
  have hdig := natDecimal_all_digits n
  show tokenizeAux (scan (natDecimal n)) 0 0 [] = _
  rw [hcc, scan_digit_single c cs (hdig c (by rw [hcc]; exact List.mem_cons_self c cs))
    (fun x hx => hdig x (by rw [hcc]; exact List.mem_cons_of_mem c hx)), ← hcc]
  have hval : parseU16 (natDecimal n) = .ok n := by
    unfold parseU16
    rw [natDecimal_value n, if_pos h]
  simp [digitToken, hval, tokenizeAux]

/-- Witness for C5 at 69. -/
theorem tokenize_decimal_repr_witness :
    tokenize (String.mk (natDecimal 69)) = .ok [Token.TerminalId 69] :=
  tokenize_decimal_repr 69 (by decide)

/-- Claim C6: a maximal run of digits whose value exceeds the 16-bit range
makes `tokenize` fail with the overflow `ParseIntError`; in particular
`tokenize "99999"` does. -/
theorem tokenize_digit_overflow :
    (∀ (c : Char) (ds rest : List Char), isDigitChar c = true →
      (∀ x ∈ ds, isDigitChar x = true) →
      (∀ x, rest.head? = some x → isDigitChar x = false) →
      65535 < digitsToNat (c :: ds) →
      tokenize (String.mk (c :: (ds ++ rest))) =
        .error (LexingError.ParseIntError IntErrorKind.PosOverflow)) ∧
    tokenize "99999" = .error (LexingError.ParseIntError IntErrorKind.PosOverflow) := by
  refine ⟨?_, rfl⟩
  intro c ds rest hc hds hrest hval
  show tokenizeAux (scan (c :: (ds ++ rest))) 0 0 [] = _
  rw [scan_digit_run c ds rest hc hds hrest]
  have hp : parseU16 (c :: ds) = .error IntErrorKind.PosOverflow := by
    unfold parseU16
    rw [if_neg (by omega)]
  simp [digitToken, hp, tokenizeAux]

/-- Witness for C6 at 70000, a five-digit overflow run. -/
theorem tokenize_digit_overflow_witness :
    tokenize (String.mk ('7' :: (['0', '0', '0', '0'] ++ []))) =
      .error (LexingError.ParseIntError IntErrorKind.PosOverflow) :=
  tokenize_digit_overflow.1 '7' ['0', '0', '0', '0'] [] (by decide) (by decide)
    (fun _ hx => nomatch hx) (by decide)

/-- Claim C7: a whitespace run before the remaining input produces no item
at all; the empty input tokenizes to the empty sequence, and an all
whitespace input does too. -/
theorem tokenize_whitespace_skipped :
    (∀ ws l : List Char, (∀ c ∈ ws, isSkipChar c = true) →
      scan (ws ++ l) = scan l) ∧
    tokenize "" = .ok [] ∧
    (∀ ws : List Char, (∀ c ∈ ws, isSkipChar c = true) →
      tokenize (String.mk ws) = .ok []) := by
  refine ⟨scan_ws_collapse, rfl, ?_⟩
  intro ws h
  show tokenizeAux (scan ws) 0 0 [] = _
  have hnil : scan ws = [] := by
    have h2 := scan_ws_collapse ws [] h
    rwa [List.append_nil, scan_nil] at h2
  rw [hnil]
  rfl

/-- Witness for C7 on a two-character whitespace run. -/
theorem tokenize_whitespace_skipped_witness :
    scan ([' ', '\t'] ++ ['1']) = scan ['1'] :=
  tokenize_whitespace_skipped.1 [' ', '\t'] ['1'] (by decide)

/-- Claim C8: adjacent lexemes of different classes split without separating
whitespace: a digit run followed directly by an alphabetic run (and vice
versa) scans as the two runs' items in sequence, and concretely
`"1and"` and `"(0and1)"` tokenize to the split token sequences. -/
theorem tokenize_adjacent_lexemes :
    (∀ (c : Char) (ds as : List Char), isDigitChar c = true →
      (∀ x ∈ ds, isDigitChar x = true) → (∀ x ∈ as, isAlphaChar x = true) →
      scan (c :: (ds ++ as)) = scan (c :: ds) ++ scan as) ∧
    (∀ (c : Char) (as ds : List Char), isAlphaChar c = true →
      (∀ x ∈ as, isAlphaChar x = true) → (∀ x ∈ ds, isDigitChar x = true) →
      scan (c :: (as ++ ds)) = scan (c :: as) ++ scan ds) ∧
    tokenize "1and" = .ok [Token.TerminalId 1, Token.Gate Gate.And] ∧
    tokenize "(0and1)" = .ok [Token.ParenOpen, Token.TerminalId 0, Token.Gate Gate.And,
      Token.TerminalId 1, Token.ParenClose] := by
  refine ⟨?_, ?_, rfl, rfl⟩
  · intro c ds as hc hds has
    have hhead : ∀ x, as.head? = some x → isDigitChar x = false := by
      intro x hx
      have hmem : x ∈ as := by
        cases as with
        | nil => exact absurd hx (by simp)
        | cons y ys =>
          simp only [List.head?_cons, Option.some.injEq] at hx
          rw [← hx]
          exact List.mem_cons_self _ _
      exact (alpha_no_other_class x (has x hmem)).2.2.2
    rw [scan_digit_run c ds as hc hds hhead, scan_digit_single c ds hc hds]
    rfl
  · intro c as ds hc has hds
    have hhead : ∀ x, ds.head? = some x → isAlphaChar x = false := by
      intro x hx
      have hmem : x ∈ ds := by
        cases ds with
        | nil => exact absurd hx (by simp)
        | cons y ys =>
          simp only [List.head?_cons, Option.some.injEq] at hx
          rw [← hx]
          exact List.mem_cons_self _ _
      exact (digit_no_other_class x (hds x hmem)).2.2.2
    rw [scan_alpha_run c as ds hc has hhead, scan_alpha_single c as hc has]
    rfl

/-- Witness for C8 at a digit run followed by a gate word. -/
theorem tokenize_adjacent_lexemes_witness :
    scan ('1' :: ([] ++ ['a', 'n', 'd'])) = scan ['1'] ++ scan ['a', 'n', 'd'] :=
  tokenize_adjacent_lexemes.1 '1' [] ['a', 'n', 'd'] (by decide) (by decide) (by decide)

/-- Claim C9 counterexample: `"x\r"` contains a carriage return outside any
lexeme, yet `tokenize` fails with `NoSuchGate "X"` (the earlier lexical
error), not with `Other`. -/
theorem carriage_return_counterexample :
    tokenize "x\r" = .error (LexingError.NoSuchGate "X") := rfl

/-- Claim C9 amended: the carriage return is not in the skipped whitespace
class and matches no lexical rule, so wherever the scanner's cursor reaches
a carriage return it yields `Other`; `tokenize "0\r1"` fails with `Other`
(an input containing a carriage return can instead fail with an earlier
lexical error, as the counterexample shows). -/
theorem carriage_return_amended :
    isSkipChar '\r' = false ∧ isDigitChar '\r' = false ∧ isAlphaChar '\r' = false ∧
    (∀ cs : List Char, scan ('\r' :: cs) = .error LexingError.Other :: scan cs) ∧
    tokenize "0\r1" = .error LexingError.Other := by
  refine ⟨rfl, rfl, rfl, ?_, rfl⟩
  intro cs
  exact scan_other_cons '\r' cs rfl (by decide) (by decide) rfl rfl

/-- Claim C10: every successfully returned token sequence has as many
`ParenOpen` tokens as `ParenClose` tokens. -/
theorem tokenize_ok_balanced (s : String) (seq : List Token)
    (h : tokenize s = .ok seq) :
    countTok Token.ParenOpen seq = countTok Token.ParenClose seq := by
  obtain ⟨ts, hseq, hcnt⟩ := tokenizeAux_ok_counts (scan s.data) 0 0 [] seq h
  rw [hseq]
  simp only [List.nil_append]
  omega

/-- Witness for C10 on the balanced input `"()"`. -/
theorem tokenize_ok_balanced_witness :
    countTok Token.ParenOpen [Token.ParenOpen, Token.ParenClose] =
      countTok Token.ParenClose [Token.ParenOpen, Token.ParenClose] :=
  tokenize_ok_balanced "()" [Token.ParenOpen, Token.ParenClose] (by rfl)

end Requiem
